import Mathlib

/-
  Verification development for the Vedic transit calculator
  (src/vedic_transits.py).

  Times (Julian days), longitudes and speeds are embedded as rationals.
  Python's int() truncates toward zero; Python's % on a positive modulus
  returns a value in [0, modulus).  The ephemeris library is modelled as
  an abstract oracle: a function from time to (longitude, speed).
-/

namespace VedicTransits

/-- Truncation toward zero: the behaviour of Python int() on a real number. -/
def pyTrunc (q : ℚ) : ℤ := if 0 ≤ q then ⌊q⌋ else ⌈q⌉

/-- Python float modulo for a positive modulus: a % b = a - b * floor (a / b). -/
def pymod (a b : ℚ) : ℚ := a - b * ⌊a / b⌋

/-- get_sign from vedic_transits.py lines 89-91: int(lon / 30) + 1.
No normalization of the longitude is performed. -/
def get_sign (lon : ℚ) : ℤ := pyTrunc (lon / 30) + 1

/-- An ephemeris oracle for one body: time (Julian day) to (longitude, speed).
Models swe.calc_ut for a fixed body. -/
abbrev Oracle := ℚ → ℚ × ℚ

/-- get_planet_data, ordinary branch (lines 78-87): returns
(longitude, speed, is_retro) with is_retro = speed < 0. -/
def planetData (o : Oracle) (jd : ℚ) : ℚ × ℚ × Bool :=
  ((o jd).1, (o jd).2, decide ((o jd).2 < 0))

/-- get_planet_data, KETU branch (lines 63-77): queries Rahu (mean node),
returns ((rahu_lon + 180) % 360, rahu_speed, rahu_speed < 0). -/
def ketuData (rahu : Oracle) (jd : ℚ) : ℚ × ℚ × Bool :=
  (pymod ((rahu jd).1 + 180) 360, (rahu jd).2, decide ((rahu jd).2 < 0))

/-- One entry of the list returned by find_events: the dict
with keys jd, sign, retro, speed. -/
structure Ev where
  jd : ℚ
  sign : ℤ
  retro : Bool
  speed : ℚ
deriving DecidableEq

/-- State of the binary-search refinement loop (find_events lines 153-179):
the variables low, high, found_jd, plus the list of midpoints at which the
oracle was queried, in order. -/
structure BState where
  low : ℚ
  high : ℚ
  found : ℚ
  trace : List ℚ

/-- The match_prev test of find_events lines 171-173: a time matches the
pre-change state when, on every axis that changed over the bracket, its
sampled value equals the pre-change value. -/
def matchPrev (o : Oracle) (sc mc : Bool) (pSign : ℤ) (pRetro : Bool) (t : ℚ) : Bool :=
  (if sc then get_sign (o t).1 == pSign else true) &&
  (if mc then decide ((o t).2 < 0) == pRetro else true)

/-- The bisection loop of find_events lines 158-179, parameterised by the
iteration count (the source runs it 20 times).  Each iteration queries the
oracle at mid = (low + high) / 2; if the sample matches the pre-change state
the change lies in the upper half, otherwise in the lower half and mid
becomes the candidate found_jd. -/
def bisect (o : Oracle) (sc mc : Bool) (pSign : ℤ) (pRetro : Bool) :
    Nat → ℚ → ℚ → ℚ → BState
  | 0, low, high, found => ⟨low, high, found, []⟩
  | n + 1, low, high, found =>
    let mid := (low + high) / 2
    if matchPrev o sc mc pSign pRetro mid then
      let r := bisect o sc mc pSign pRetro n mid high found
      ⟨r.low, r.high, r.found, mid :: r.trace⟩
    else
      let r := bisect o sc mc pSign pRetro n low mid mid
      ⟨r.low, r.high, r.found, mid :: r.trace⟩

/-- Scan step in days (find_events lines 126-128): 6 hours normally, about
1 hour for the Moon. -/
def stepDays (isMoon : Bool) : ℚ := if isMoon then 1 / 25 else 1 / 4

/-- The small positive offset added after a refined event (line 200). -/
def epsJD : ℚ := 1 / 10000

/-- Advance of the scan cursor by one step, clamped to the window end
(find_events lines 138-140). -/
def clampStep (m : Bool) (endJd scan : ℚ) : ℚ :=
  if endJd < scan + stepDays m then endJd else scan + stepDays m

/-- The event dict built from the sample at time t: get_planet_data followed
by get_sign, as at lines 111-120 and 183-191. -/
def foundEv (o : Oracle) (t : ℚ) : Ev :=
  ⟨t, get_sign (o t).1, decide ((o t).2 < 0), (o t).2⟩

/-- The refinement call issued by the scanner for the bracket from scan to
the clamped next sample: low = prev_jd, high = found_jd = scan_jd, and the
changed-axis flags are recomputed from the two bracketing samples. -/
def scanBisect (o : Oracle) (m : Bool) (endJd scan : ℚ) (sign : ℤ) (retro : Bool) : BState :=
  bisect o (get_sign (o (clampStep m endJd scan)).1 != sign)
    (decide ((o (clampStep m endJd scan)).2 < 0) != retro) sign retro 20 scan
    (clampStep m endJd scan) (clampStep m endJd scan)

/-- The scanning loop of find_events (lines 130-201).  Arguments mirror the
Python loop variables: the scan cursor, the rolling current sign and motion
flag, and the accumulated event list.  The second component of the result is
the list of times at which the oracle is queried, in call order. -/
def findLoop (o : Oracle) (m : Bool) (endJd : ℚ) (scan : ℚ) (sign : ℤ) (retro : Bool)
    (events : List Ev) : List Ev × List ℚ :=
  if h : scan < endJd then
    let s2 := clampStep m endJd scan
    if hch : ((get_sign (o s2).1 != sign) || (decide ((o s2).2 < 0) != retro)) = true then
      let r := scanBisect o m endJd scan sign retro
      let rest := findLoop o m endJd (r.found + epsJD) (foundEv o r.found).sign
        (foundEv o r.found).retro (events ++ [foundEv o r.found])
      (rest.1, s2 :: (r.trace ++ r.found :: rest.2))
    else
      let rest := findLoop o m endJd s2 (get_sign (o s2).1) (decide ((o s2).2 < 0)) events
      (rest.1, s2 :: rest.2)
  else (events, [])
termination_by (⌈(10000 : ℚ) * (endJd - scan)⌉).toNat
decreasing_by
  · show (⌈(10000 : ℚ) * (endJd - (r.found + epsJD))⌉).toNat <
      (⌈(10000 : ℚ) * (endJd - scan)⌉).toNat
    have hstep : 0 < stepDays m := by cases m <;> norm_num [stepDays]
    have hs2a : scan < s2 := by
      show scan < clampStep m endJd scan
      unfold clampStep
      split
      · exact h
      · linarith
    have hkey : ∀ (n : Nat) (low high found : ℚ),
        scan ≤ low → low < high → scan < found →
        scan < (bisect o (get_sign (o s2).1 != sign) (decide ((o s2).2 < 0) != retro)
          sign retro n low high found).found := by
      intro n
      induction n with
      | zero => intro low high found _ _ h4; exact h4
      | succ n ih =>
        intro low high found h1 h2 h4
        simp only [bisect]
        split
        · exact ih _ high found (by linarith) (by linarith) h4
        · exact ih low _ _ h1 (by linarith) (by linarith)
    have hf : scan < r.found := hkey 20 scan s2 s2 le_rfl hs2a hs2a
    have hexp : (10000 : ℚ) * (endJd - (r.found + epsJD)) =
        10000 * (endJd - r.found) - 1 := by
      unfold epsJD; ring
    have key : 10000 * (endJd - (r.found + epsJD)) ≤ 10000 * (endJd - scan) - 1 := by
      rw [hexp]
      linarith
    have hc1 : ⌈(10000 : ℚ) * (endJd - (r.found + epsJD))⌉ ≤
        ⌈(10000 : ℚ) * (endJd - scan) - 1⌉ := Int.ceil_le_ceil key
    rw [Int.ceil_sub_one] at hc1
    have hc2 : 0 < ⌈(10000 : ℚ) * (endJd - scan)⌉ :=
      Int.ceil_pos.mpr (by linarith)
    omega
  · show (⌈(10000 : ℚ) * (endJd - s2)⌉).toNat <
      (⌈(10000 : ℚ) * (endJd - scan)⌉).toNat
    have hc2 : 0 < ⌈(10000 : ℚ) * (endJd - scan)⌉ :=
      Int.ceil_pos.mpr (by linarith)
    have hone : (1 : ℚ) ≤ 10000 * stepDays m := by cases m <;> norm_num [stepDays]
    have hcl : s2 = endJd ∨ s2 = scan + stepDays m := by
      show clampStep m endJd scan = endJd ∨ clampStep m endJd scan = scan + stepDays m
      unfold clampStep
      split
      · exact Or.inl rfl
      · exact Or.inr rfl
    rcases hcl with hcl | hcl
    · have hz : (10000 : ℚ) * (endJd - s2) = 0 := by rw [hcl]; ring
      have h0 : ⌈(10000 : ℚ) * (endJd - s2)⌉ = 0 := by rw [hz]; exact Int.ceil_zero
      omega
    · have h10 : (10000 : ℚ) * (endJd - (scan + stepDays m)) =
          10000 * (endJd - scan) - 10000 * stepDays m := by ring
      have key : 10000 * (endJd - s2) ≤ 10000 * (endJd - scan) - 1 := by
        rw [hcl, h10]
        linarith
      have hc1 : ⌈(10000 : ℚ) * (endJd - s2)⌉ ≤
          ⌈(10000 : ℚ) * (endJd - scan) - 1⌉ := Int.ceil_le_ceil key
      rw [Int.ceil_sub_one] at hc1
      omega

/-- find_events (lines 102-207): takes the oracle for the body, whether the
body is the Moon (which selects the finer scan step), and the window.
Returns the event list and the list of oracle query times in call order. -/
def findEvents (o : Oracle) (m : Bool) (startJd endJd : ℚ) : List Ev × List ℚ :=
  let r := findLoop o m endJd startJd (foundEv o startJd).sign (foundEv o startJd).retro
    [foundEv o startJd]
  (r.1, startJd :: r.2)

/-- A constant test oracle: longitude 0, speed 1 at every instant. -/
def constOracle : Oracle := fun _ => (0, 1)

/-- A test oracle with a single sign change at t = 1/2 (longitude jumps from
20 to 40 degrees) and constant direct motion. -/
def oneChangeOracle : Oracle := fun t => (if t < 1 / 2 then 20 else 40, 1)

/-- A test oracle with a sign change at t = 1/4 (longitude 20 to 40 degrees)
and a motion change at t = 3/4 (speed 1 to -1). -/
def twoAxisOracle : Oracle :=
  fun t => (if t < 1 / 4 then 20 else 40, if t < 3 / 4 then 1 else -1)

/-- Strictly increasing event times. -/
def timeLt (a b : Ev) : Prop := a.jd < b.jd

/-- Adjacent events differ in their discrete state (sign, motion flag). -/
def stateNe (a b : Ev) : Prop := a.sign ≠ b.sign ∨ a.retro ≠ b.retro

/-- Instant t lies in the i-th interval of the event list: from event i's
time (inclusive) to event i+1's time (exclusive), or to the window end
(inclusive) for the last event.  This is the interval during which
event i's state holds. -/
def covers : List Ev → ℚ → Nat → ℚ → Prop
  | [], _, _, _ => False
  | [a], e, 0, t => a.jd ≤ t ∧ t ≤ e
  | [_], _, _ + 1, _ => False
  | a :: b :: _, _, 0, t => a.jd ≤ t ∧ t < b.jd
  | _ :: b :: l, e, i + 1, t => covers (b :: l) e i t

lemma stepDays_pos (m : Bool) : 0 < stepDays m := by
  cases m <;> norm_num [stepDays]

lemma clampStep_gt {endJd scan : ℚ} (m : Bool) (h : scan < endJd) :
    scan < clampStep m endJd scan := by
  unfold clampStep
  split
  · exact h
  · linarith [stepDays_pos m]

lemma clampStep_le {endJd scan : ℚ} (m : Bool) (h : scan < endJd) :
    clampStep m endJd scan ≤ endJd := by
  unfold clampStep
  split
  · exact le_rfl
  · linarith

lemma bisect_trace_length (o : Oracle) (sc mc : Bool) (pSign : ℤ) (pRetro : Bool) :
    ∀ (n : Nat) (low high found : ℚ),
      (bisect o sc mc pSign pRetro n low high found).trace.length = n := by
  intro n
  induction n with
  | zero => intro low high found; rfl
  | succ n ih =>
    intro low high found
    simp only [bisect]
    split
    · simpa using ih _ _ _
    · simpa using ih _ _ _

/-- The refined instant always lies strictly above any lower bound of the
bracket and never exceeds any upper bound: bisection midpoints stay inside
the open bracket. -/
lemma bisect_found_mem (o : Oracle) (sc mc : Bool) (pSign : ℤ) (pRetro : Bool) :
    ∀ (n : Nat) (lb hb low high found : ℚ),
      lb ≤ low → low < high → high ≤ hb → lb < found → found ≤ hb →
      lb < (bisect o sc mc pSign pRetro n low high found).found ∧
        (bisect o sc mc pSign pRetro n low high found).found ≤ hb := by
  intro n
  induction n with
  | zero =>
    intro lb hb low high found _ _ _ h4 h5
    exact ⟨h4, h5⟩
  | succ n ih =>
    intro lb hb low high found h1 h2 h3 h4 h5
    simp only [bisect]
    have hm1 : low < (low + high) / 2 := by linarith
    have hm2 : (low + high) / 2 < high := by linarith
    split
    · exact ih lb hb _ high found (le_of_lt (lt_of_le_of_lt h1 hm1)) hm2 h3 h4 h5
    · exact ih lb hb low _ _ h1 hm1 (le_trans (le_of_lt hm2) h3)
        (lt_of_le_of_lt h1 hm1) (le_trans (le_of_lt hm2) h3)

/-- If the initial candidate fails the pre-change test, so does the refined
instant: the returned found_jd always carries a post-change sample. -/
lemma bisect_found_not_match (o : Oracle) (sc mc : Bool) (pSign : ℤ) (pRetro : Bool) :
    ∀ (n : Nat) (low high found : ℚ),
      matchPrev o sc mc pSign pRetro found = false →
      matchPrev o sc mc pSign pRetro
        (bisect o sc mc pSign pRetro n low high found).found = false := by
  intro n
  induction n with
  | zero => intro low high found h; exact h
  | succ n ih =>
    intro low high found h
    simp only [bisect]
    split
    · exact ih _ _ _ h
    · next hm => exact ih _ _ _ (by simpa using hm)

/-- If the initial candidate equals high, the refined instant is the final
value of high throughout the search. -/
lemma bisect_found_eq_high (o : Oracle) (sc mc : Bool) (pSign : ℤ) (pRetro : Bool) :
    ∀ (n : Nat) (low high found : ℚ), found = high →
      (bisect o sc mc pSign pRetro n low high found).found =
        (bisect o sc mc pSign pRetro n low high found).high := by
  intro n
  induction n with
  | zero => intro low high found h; exact h
  | succ n ih =>
    intro low high found h
    simp only [bisect]
    split
    · exact ih _ _ _ h
    · exact ih _ _ _ rfl

/-- Exact bisection analysis for a bracket containing exactly one change:
if the pre-change test is the predicate "t is before tstar" and the bracket
straddles tstar, then after n iterations low is still before tstar, high is
at or after it, found equals high, and the bracket width has been divided
by 2 to the n. -/
lemma bisect_exact (o : Oracle) (sc mc : Bool) (pSign : ℤ) (pRetro : Bool) (tstar : ℚ)
    (hx : ∀ t, matchPrev o sc mc pSign pRetro t = decide (t < tstar)) :
    ∀ (n : Nat) (low high found : ℚ),
      low < tstar → tstar ≤ high → found = high →
      (bisect o sc mc pSign pRetro n low high found).low < tstar ∧
      tstar ≤ (bisect o sc mc pSign pRetro n low high found).high ∧
      (bisect o sc mc pSign pRetro n low high found).found =
        (bisect o sc mc pSign pRetro n low high found).high ∧
      (bisect o sc mc pSign pRetro n low high found).high -
        (bisect o sc mc pSign pRetro n low high found).low = (high - low) / 2 ^ n := by
  intro n
  induction n with
  | zero =>
    intro low high found h1 h2 h3
    exact ⟨h1, h2, h3, by simp [bisect]⟩
  | succ n ih =>
    intro low high found h1 h2 h3
    simp only [bisect, hx]
    by_cases hm : (low + high) / 2 < tstar
    · rw [if_pos (by simpa using hm)]
      have := ih ((low + high) / 2) high found hm h2 h3
      refine ⟨this.1, this.2.1, this.2.2.1, ?_⟩
      rw [this.2.2.2]
      ring
    · rw [if_neg (by simpa using hm)]
      have := ih low ((low + high) / 2) ((low + high) / 2) h1 (not_lt.mp hm) rfl
      refine ⟨this.1, this.2.1, this.2.2.1, ?_⟩
      rw [this.2.2.2]
      ring

lemma findLoop_stop (o : Oracle) (m : Bool) (endJd scan : ℚ) (sign : ℤ) (retro : Bool)
    (events : List Ev) (h : ¬ scan < endJd) :
    findLoop o m endJd scan sign retro events = (events, []) := by
  rw [findLoop]
  simp [h]

lemma findLoop_nochange (o : Oracle) (m : Bool) (endJd scan : ℚ) (sign : ℤ) (retro : Bool)
    (events : List Ev) (h : scan < endJd)
    (hch : ¬ ((get_sign (o (clampStep m endJd scan)).1 != sign) ||
      (decide ((o (clampStep m endJd scan)).2 < 0) != retro)) = true) :
    findLoop o m endJd scan sign retro events =
      ((findLoop o m endJd (clampStep m endJd scan) (get_sign (o (clampStep m endJd scan)).1)
          (decide ((o (clampStep m endJd scan)).2 < 0)) events).1,
        clampStep m endJd scan ::
          (findLoop o m endJd (clampStep m endJd scan) (get_sign (o (clampStep m endJd scan)).1)
            (decide ((o (clampStep m endJd scan)).2 < 0)) events).2) := by
  rw [findLoop]
  simp only [dif_pos h, dif_neg hch]

lemma findLoop_change (o : Oracle) (m : Bool) (endJd scan : ℚ) (sign : ℤ) (retro : Bool)
    (events : List Ev) (h : scan < endJd)
    (hch : ((get_sign (o (clampStep m endJd scan)).1 != sign) ||
      (decide ((o (clampStep m endJd scan)).2 < 0) != retro)) = true) :
    findLoop o m endJd scan sign retro events =
      ((findLoop o m endJd ((scanBisect o m endJd scan sign retro).found + epsJD)
          (foundEv o (scanBisect o m endJd scan sign retro).found).sign
          (foundEv o (scanBisect o m endJd scan sign retro).found).retro
          (events ++ [foundEv o (scanBisect o m endJd scan sign retro).found])).1,
        clampStep m endJd scan ::
          ((scanBisect o m endJd scan sign retro).trace ++
            (scanBisect o m endJd scan sign retro).found ::
              (findLoop o m endJd ((scanBisect o m endJd scan sign retro).found + epsJD)
                (foundEv o (scanBisect o m endJd scan sign retro).found).sign
                (foundEv o (scanBisect o m endJd scan sign retro).found).retro
                (events ++ [foundEv o (scanBisect o m endJd scan sign retro).found])).2)) := by
  rw [findLoop]
  simp only [dif_pos h, dif_pos hch]

/-- When the scanner detects a change over the bracket, the sample at the
clamped next time fails the pre-change test. -/
lemma matchPrev_clamp_false (o : Oracle) (m : Bool) (endJd scan : ℚ) (sign : ℤ) (retro : Bool)
    (hch : ((get_sign (o (clampStep m endJd scan)).1 != sign) ||
      (decide ((o (clampStep m endJd scan)).2 < 0) != retro)) = true) :
    matchPrev o (get_sign (o (clampStep m endJd scan)).1 != sign)
      (decide ((o (clampStep m endJd scan)).2 < 0) != retro) sign retro
      (clampStep m endJd scan) = false := by
  unfold matchPrev
  by_cases h1 : get_sign (o (clampStep m endJd scan)).1 = sign
  · have h2 : decide ((o (clampStep m endJd scan)).2 < 0) ≠ retro := by
      intro h2
      simp [h1, h2] at hch
    simp [h1, h2]
  · simp [h1]

/-- A time failing the pre-change test carries a sample whose discrete state
differs from the pre-change state. -/
lemma matchPrev_false_state (o : Oracle) (sc mc : Bool) (sign : ℤ) (retro : Bool) (t : ℚ)
    (h : matchPrev o sc mc sign retro t = false) :
    get_sign (o t).1 ≠ sign ∨ decide ((o t).2 < 0) ≠ retro := by
  by_cases h1 : get_sign (o t).1 = sign
  · refine Or.inr ?_
    intro h2
    unfold matchPrev at h
    simp [h1, h2] at h
  · exact Or.inl h1

/-- Main invariant of the scanning loop: the loop only appends events; the
resulting list keeps strictly increasing times and no duplicated adjacent
states, and every appended event lies strictly after the cursor and at or
before the window end. -/
lemma findLoop_invariant (o : Oracle) (m : Bool) (endJd : ℚ) :
    ∀ (scan : ℚ) (sign : ℤ) (retro : Bool) (events : List Ev),
      ∀ lastEv : Ev, events.getLast? = some lastEv →
      lastEv.jd ≤ scan → lastEv.sign = sign → lastEv.retro = retro →
      List.Chain' timeLt events → List.Chain' stateNe events →
      ∃ tail, (findLoop o m endJd scan sign retro events).1 = events ++ tail ∧
        List.Chain' timeLt (events ++ tail) ∧
        List.Chain' stateNe (events ++ tail) ∧
        ∀ ev ∈ tail, scan < ev.jd ∧ ev.jd ≤ endJd := by
  intro scan sign retro events
  induction scan, sign, retro, events using findLoop.induct o m endJd with
  | case1 scan sign retro events h s2 hch r ih =>
    intro lastEv hlast hjd hsign hretro hc1 hc2
    have hch' : ((get_sign (o (clampStep m endJd scan)).1 != sign) ||
        (decide ((o (clampStep m endJd scan)).2 < 0) != retro)) = true := hch
    have hs2a : scan < clampStep m endJd scan := clampStep_gt m h
    have hs2b : clampStep m endJd scan ≤ endJd := clampStep_le m h
    have hr : scan < (scanBisect o m endJd scan sign retro).found ∧
        (scanBisect o m endJd scan sign retro).found ≤ clampStep m endJd scan :=
      bisect_found_mem o (get_sign (o (clampStep m endJd scan)).1 != sign)
        (decide ((o (clampStep m endJd scan)).2 < 0) != retro) sign retro 20
        scan (clampStep m endJd scan) scan (clampStep m endJd scan) (clampStep m endJd scan)
        le_rfl hs2a le_rfl hs2a le_rfl
    have hm1 : matchPrev o (get_sign (o (clampStep m endJd scan)).1 != sign)
        (decide ((o (clampStep m endJd scan)).2 < 0) != retro) sign retro
        (scanBisect o m endJd scan sign retro).found = false :=
      bisect_found_not_match o _ _ sign retro 20 scan (clampStep m endJd scan)
        (clampStep m endJd scan) (matchPrev_clamp_false o m endJd scan sign retro hch')
    have hstate : get_sign (o (scanBisect o m endJd scan sign retro).found).1 ≠ sign ∨
        decide ((o (scanBisect o m endJd scan sign retro).found).2 < 0) ≠ retro :=
      matchPrev_false_state o _ _ sign retro _ hm1
    have hlast' : (events ++ [foundEv o (scanBisect o m endJd scan sign retro).found]).getLast?
        = some (foundEv o (scanBisect o m endJd scan sign retro).found) := by
      simp
    have hstep : timeLt lastEv (foundEv o (scanBisect o m endJd scan sign retro).found) := by
      unfold timeLt foundEv
      exact lt_of_le_of_lt hjd hr.1
    have hstepS : stateNe lastEv (foundEv o (scanBisect o m endJd scan sign retro).found) := by
      unfold stateNe foundEv
      rcases hstate with hs | hs
      · exact Or.inl (by rw [hsign]; exact fun hx => hs hx.symm)
      · exact Or.inr (by rw [hretro]; exact fun hx => hs hx.symm)
    have hchain1 : List.Chain' timeLt
        (events ++ [foundEv o (scanBisect o m endJd scan sign retro).found]) := by
      rw [List.chain'_append]
      refine ⟨hc1, List.chain'_singleton _, ?_⟩
      intro x hx y hy
      have hx' : x = lastEv := by
        rw [hlast] at hx
        simpa using hx.symm
      have hy' : y = foundEv o (scanBisect o m endJd scan sign retro).found := by
        simpa using hy.symm
      rw [hx', hy']
      exact hstep
    have hchain2 : List.Chain' stateNe
        (events ++ [foundEv o (scanBisect o m endJd scan sign retro).found]) := by
      rw [List.chain'_append]
      refine ⟨hc2, List.chain'_singleton _, ?_⟩
      intro x hx y hy
      have hx' : x = lastEv := by
        rw [hlast] at hx
        simpa using hx.symm
      have hy' : y = foundEv o (scanBisect o m endJd scan sign retro).found := by
        simpa using hy.symm
      rw [hx', hy']
      exact hstepS
    have hjd' : (foundEv o (scanBisect o m endJd scan sign retro).found).jd ≤
        (scanBisect o m endJd scan sign retro).found + epsJD := by
      unfold foundEv
      simp only []
      unfold epsJD
      linarith
    obtain ⟨tail, e1, e2, e3, e4⟩ :=
      ih (foundEv o (scanBisect o m endJd scan sign retro).found) hlast' hjd' rfl rfl
        hchain1 hchain2
    refine ⟨foundEv o (scanBisect o m endJd scan sign retro).found :: tail, ?_, ?_, ?_, ?_⟩
    · rw [findLoop_change o m endJd scan sign retro events h hch']
      have e1' : (findLoop o m endJd ((scanBisect o m endJd scan sign retro).found + epsJD)
          (foundEv o (scanBisect o m endJd scan sign retro).found).sign
          (foundEv o (scanBisect o m endJd scan sign retro).found).retro
          (events ++ [foundEv o (scanBisect o m endJd scan sign retro).found])).1 =
          (events ++ [foundEv o (scanBisect o m endJd scan sign retro).found]) ++ tail := e1
      rw [e1']
      simp
    · have e2' : List.Chain' timeLt
          ((events ++ [foundEv o (scanBisect o m endJd scan sign retro).found]) ++ tail) := e2
      simpa using e2'
    · have e3' : List.Chain' stateNe
          ((events ++ [foundEv o (scanBisect o m endJd scan sign retro).found]) ++ tail) := e3
      simpa using e3'
    · intro ev hev
      rcases List.mem_cons.mp hev with hev' | hev'
      · rw [hev']
        exact ⟨hr.1, le_trans hr.2 hs2b⟩
      · have h4 := e4 ev hev'
        have h5 : (scanBisect o m endJd scan sign retro).found + epsJD < ev.jd := h4.1
        have h6 : (0 : ℚ) < epsJD := by unfold epsJD; norm_num
        exact ⟨by linarith [hr.1], h4.2⟩
  | case2 scan sign retro events h s2 hch ih =>
    intro lastEv hlast hjd hsign hretro hc1 hc2
    have hch' : ¬ ((get_sign (o (clampStep m endJd scan)).1 != sign) ||
        (decide ((o (clampStep m endJd scan)).2 < 0) != retro)) = true := hch
    have hsg : get_sign (o (clampStep m endJd scan)).1 = sign := by
      by_contra hne
      exact hch' (by simp [hne])
    have hrt : decide ((o (clampStep m endJd scan)).2 < 0) = retro := by
      by_contra hne
      exact hch' (by simp [hne])
    obtain ⟨tail, e1, e2, e3, e4⟩ :=
      ih lastEv hlast (le_trans hjd (le_of_lt (clampStep_gt m h)))
        (hsign.trans hsg.symm) (hretro.trans hrt.symm) hc1 hc2
    refine ⟨tail, ?_, e2, e3, ?_⟩
    · rw [findLoop_nochange o m endJd scan sign retro events h hch']
      exact e1
    · intro ev hev
      have h4 := e4 ev hev
      exact ⟨lt_trans (clampStep_gt m h) h4.1, h4.2⟩
  | case3 scan sign retro events h =>
    intro lastEv hlast hjd hsign hretro hc1 hc2
    refine ⟨[], ?_, by simpa using hc1, by simpa using hc2, by simp⟩
    rw [findLoop_stop o m endJd scan sign retro events h]
    simp

lemma covers_head_le : ∀ (l : List Ev) (e : ℚ) (i : Nat) (t : ℚ),
    List.Chain' timeLt l → covers l e i t →
    ∃ hne : l ≠ [], (l.head hne).jd ≤ t := by
  intro l
  induction l with
  | nil =>
    intro e i t _ hcov
    exact absurd hcov (by cases i <;> simp [covers])
  | cons a l ih =>
    intro e i t hch hcov
    cases l with
    | nil =>
      cases i with
      | zero => exact ⟨by simp, hcov.1⟩
      | succ n => exact absurd hcov (by simp [covers])
    | cons b l' =>
      cases i with
      | zero => exact ⟨by simp, hcov.1⟩
      | succ n =>
        have hch' : List.Chain' timeLt (b :: l') := hch.tail
        obtain ⟨hne, hle⟩ := ih e n t hch' hcov
        have hab : timeLt a b := (List.chain'_cons.mp hch).1
        exact ⟨by simp, le_trans (le_of_lt hab) (by simpa using hle)⟩

/-- The intervals of a sorted event list whose last event is at or before
the window end cover each instant from the first event to the window end
exactly once: no gaps, no overlaps. -/
lemma covers_partition : ∀ (l : List Ev) (e : ℚ), List.Chain' timeLt l →
    (∀ x ∈ l.getLast?, x.jd ≤ e) →
    ∀ t : ℚ, (∃ hne : l ≠ [], (l.head hne).jd ≤ t) → t ≤ e →
    ∃! i : Nat, covers l e i t := by
  intro l
  induction l with
  | nil =>
    intro e _ _ t hhead _
    exact absurd hhead.choose (by simp)
  | cons a l ih =>
    intro e hch hlast t hhead hte
    cases l with
    | nil =>
      refine ⟨0, ⟨by simpa using hhead.choose_spec, hte⟩, ?_⟩
      intro j hj
      cases j with
      | zero => rfl
      | succ n => exact absurd hj (by simp [covers])
    | cons b l' =>
      by_cases hbt : t < b.jd
      · refine ⟨0, ⟨by simpa using hhead.choose_spec, hbt⟩, ?_⟩
        intro j hj
        cases j with
        | zero => rfl
        | succ n =>
          have hj' : covers (b :: l') e n t := hj
          obtain ⟨hne, hle⟩ := covers_head_le (b :: l') e n t hch.tail hj'
          simp at hle
          exact absurd hbt (not_lt.mpr hle)
      · have hlast' : ∀ x ∈ (b :: l').getLast?, x.jd ≤ e := by
          intro x hx
          exact hlast x (by simpa using hx)
        obtain ⟨i, hi, huniq⟩ := ih e hch.tail hlast' t
          ⟨by simp, by simpa using not_lt.mp hbt⟩ hte
        refine ⟨i + 1, hi, ?_⟩
        intro j hj
        cases j with
        | zero =>
          have hj' : a.jd ≤ t ∧ t < b.jd := hj
          exact absurd hj'.2 hbt
        | succ n =>
          have hj' : covers (b :: l') e n t := hj
          rw [huniq n hj']

/-- Invariants of find_events, packaged: the result starts with the initial
sample's event at the window start, later events lie strictly inside the
window (bounded by the window end), times strictly increase and adjacent
states differ. -/
lemma findEvents_inv (o : Oracle) (m : Bool) (s e : ℚ) :
    ∃ tail, (findEvents o m s e).1 = foundEv o s :: tail ∧
      List.Chain' timeLt (foundEv o s :: tail) ∧
      List.Chain' stateNe (foundEv o s :: tail) ∧
      ∀ ev ∈ tail, s < ev.jd ∧ ev.jd ≤ e := by
  obtain ⟨tail, e1, e2, e3, e4⟩ :=
    findLoop_invariant o m e s (foundEv o s).sign (foundEv o s).retro [foundEv o s]
      (foundEv o s) (by simp) le_rfl rfl rfl (by simp) (by simp)
  refine ⟨tail, ?_, by simpa using e2, by simpa using e3, e4⟩
  calc (findEvents o m s e).1
      = (findLoop o m e s (foundEv o s).sign (foundEv o s).retro [foundEv o s]).1 := rfl
    _ = [foundEv o s] ++ tail := e1
    _ = foundEv o s :: tail := by simp

/-- Python modulo by 360 lands in [0, 360). -/
lemma pymod_360_bounds (a : ℚ) : 0 ≤ pymod a 360 ∧ pymod a 360 < 360 := by
  unfold pymod
  have h1 : (⌊a / 360⌋ : ℚ) ≤ a / 360 := Int.floor_le _
  have h2 : a / 360 < ⌊a / 360⌋ + 1 := Int.lt_floor_add_one _
  constructor <;> [linarith; linarith]

lemma get_sign_twenty : get_sign 20 = 1 := by norm_num [get_sign, pyTrunc]

lemma get_sign_forty : get_sign 40 = 2 := by norm_num [get_sign, pyTrunc]

/-- For the one-change test oracle, the pre-change test is exactly
"before 1/2". -/
lemma oneChange_matchPrev (t : ℚ) :
    matchPrev oneChangeOracle true false 1 false t = decide (t < 1 / 2) := by
  unfold matchPrev oneChangeOracle
  by_cases h1 : t < 1 / 2
  · simp [h1, get_sign_twenty, -one_div]
  · simp [h1, get_sign_forty, -one_div]

/-- For the two-axis test oracle, the conjunctive pre-change test flips at
the EARLIER of the two sub-transitions, t = 1/4. -/
lemma twoAxis_matchPrev (t : ℚ) :
    matchPrev twoAxisOracle true true 1 false t = decide (t < 1 / 4) := by
  unfold matchPrev twoAxisOracle
  have hd1 : ¬ ((1 : ℚ) < 0) := by norm_num
  have hd2 : ((-1 : ℚ) < 0) := by norm_num
  by_cases h1 : t < 1 / 4
  · have h2 : t < 3 / 4 := by linarith
    simp [h1, h2, get_sign_twenty, hd1, -one_div]
  · by_cases h2 : t < 3 / 4
    · simp [h1, h2, get_sign_forty, hd1, -one_div]
    · simp [h1, h2, get_sign_forty, hd2, -one_div]

/-- C1: the spec states the classifier normalizes longitude into [0,360)
before the sign computation, so the sign index is in 1..12 for every real
longitude.  get_sign performs no normalization: get_sign 365 = 13 and
get_sign (-45) = 0, contradicting the claim and the function's own
docstring, which promises a sign index 1-12. -/
theorem get_sign_no_normalization : get_sign 365 = 13 ∧ get_sign (-45) = 0 := by
  constructor
  · norm_num [get_sign, pyTrunc]
  · norm_num [get_sign, pyTrunc, Int.ceil_neg]

/-- C2 counterexample: for the degenerate window start = end = 0, the
builder does not reject anything: it issues one oracle query (at time 0)
and returns a normal single-event sequence, refuting that no position
query is issued for such a window. -/
theorem invalid_window_not_rejected :
    (findEvents constOracle false 0 0).2 = [0] ∧
    (findEvents constOracle false 0 0).1 = [⟨0, 1, false, 1⟩] := by
  have h0 : findEvents constOracle false 0 0 = ([foundEv constOracle 0], [0]) := by
    show ((findLoop constOracle false 0 0 (foundEv constOracle 0).sign
        (foundEv constOracle 0).retro [foundEv constOracle 0]).1,
      (0 : ℚ) :: (findLoop constOracle false 0 0 (foundEv constOracle 0).sign
        (foundEv constOracle 0).retro [foundEv constOracle 0]).2) =
      ([foundEv constOracle 0], [0])
    rw [findLoop_stop constOracle false 0 0 (foundEv constOracle 0).sign
      (foundEv constOracle 0).retro [foundEv constOracle 0] (lt_irrefl 0)]
  have h1 : foundEv constOracle 0 = ⟨0, 1, false, 1⟩ := by
    unfold foundEv constOracle
    have : get_sign 0 = 1 := by norm_num [get_sign, pyTrunc]
    simp [this]
  rw [h0, h1]
  exact ⟨rfl, rfl⟩

/-- C2 amended: find_events performs no window validation: for any window
with end at or before start, it makes exactly one oracle query, at the
window start, and returns the single initial-sample event, with no error. -/
theorem find_events_degenerate_window (o : Oracle) (m : Bool) (s e : ℚ) (h : e ≤ s) :
    findEvents o m s e = ([foundEv o s], [s]) := by
  show ((findLoop o m e s (foundEv o s).sign (foundEv o s).retro [foundEv o s]).1,
    s :: (findLoop o m e s (foundEv o s).sign (foundEv o s).retro [foundEv o s]).2) =
    ([foundEv o s], [s])
  rw [findLoop_stop o m e s (foundEv o s).sign (foundEv o s).retro [foundEv o s]
    (not_lt.mpr h)]

/-- Witness for C2 amended at the concrete reversed window (1, 0). -/
theorem find_events_degenerate_window_witness :
    findEvents constOracle false 1 0 = ([foundEv constOracle 1], [1]) :=
  find_events_degenerate_window constOracle false 1 0 (by norm_num)

/-- C3: for every oracle, body step class and window, the event sequence
has strictly increasing times and no equal adjacent discrete states. -/
theorem find_events_ordered_distinct (o : Oracle) (m : Bool) (s e : ℚ) (h : s < e) :
    List.Chain' timeLt (findEvents o m s e).1 ∧
    List.Chain' stateNe (findEvents o m s e).1 := by
  obtain ⟨tail, e1, e2, e3, _⟩ := findEvents_inv o m s e
  rw [e1]
  exact ⟨e2, e3⟩

/-- Witness for C3 at a concrete oracle and window. -/
theorem find_events_ordered_distinct_witness :
    List.Chain' timeLt (findEvents constOracle false 0 1).1 ∧
    List.Chain' stateNe (findEvents constOracle false 0 1).1 :=
  find_events_ordered_distinct constOracle false 0 1 (by norm_num)

/-- C4 counterexample: with a sign change at t = 1/4 and a motion change at
t = 3/4 inside the bracket [0, 1], the refiner returns an instant within
1/2^20 of the EARLIER change (1/4); at the returned instant the motion
change has not yet taken effect (the sampled speed there is still the
pre-change value 1, so the retrograde flag still equals the pre-change
flag), refuting that the refined instant is one after which both changes
have taken effect. -/
theorem dual_change_refines_to_earlier :
    (twoAxisOracle (bisect twoAxisOracle true true 1 false 20 0 1 1).found).2 = 1 ∧
    decide ((twoAxisOracle
      (bisect twoAxisOracle true true 1 false 20 0 1 1).found).2 < 0) = false ∧
    |(bisect twoAxisOracle true true 1 false 20 0 1 1).found - 1 / 4| ≤ 1 / 2 ^ 20 := by
  obtain ⟨f1, f2, f3, f4⟩ := bisect_exact twoAxisOracle true true 1 false (1 / 4)
    twoAxis_matchPrev 20 0 1 1 (by norm_num) (by norm_num) rfl
  norm_num at f4
  have hlt : (bisect twoAxisOracle true true 1 false 20 0 1 1).found < 3 / 4 := by
    rw [f3]
    linarith
  have hsp : (twoAxisOracle (bisect twoAxisOracle true true 1 false 20 0 1 1).found).2 = 1 := by
    show (if (bisect twoAxisOracle true true 1 false 20 0 1 1).found < 3 / 4
      then (1 : ℚ) else -1) = 1
    rw [if_pos hlt]
  refine ⟨hsp, ?_, ?_⟩
  · rw [hsp]
    have : ¬ ((1 : ℚ) < 0) := by norm_num
    simp [this]
  · rw [f3, abs_of_nonneg (by linarith)]
    linarith

/-- C4 amended: when both a sign and a motion change are detected in one
bracket, a midpoint counts as pre-change only if it matches the pre-change
state on every changed axis, so the combined pre-change predicate flips at
the EARLIER sub-transition instant t1.  The refiner converges to t1 within
the bisection precision, and when the later sub-transition t2 lies beyond
that precision the later change has not yet taken effect at the returned
instant (it is found later as a separate event). -/
theorem dual_change_converges_to_first (o : Oracle) (ps : ℤ) (pr : Bool)
    (low high t1 : ℚ)
    (hx : ∀ t, matchPrev o true true ps pr t = decide (t < t1))
    (h1 : low < t1) (h2 : t1 ≤ high) :
    |(bisect o true true ps pr 20 low high high).found - t1| ≤ (high - low) / 2 ^ 20 ∧
    ∀ t2 : ℚ, (∀ t, t < t2 → decide ((o t).2 < 0) = pr) →
      t1 + (high - low) / 2 ^ 20 < t2 →
      decide ((o (bisect o true true ps pr 20 low high high).found).2 < 0) = pr := by
  obtain ⟨f1, f2, f3, f4⟩ := bisect_exact o true true ps pr t1 hx 20 low high high h1 h2 rfl
  have hb : (bisect o true true ps pr 20 low high high).found ≤
      t1 + (high - low) / 2 ^ 20 := by
    rw [f3]
    linarith
  constructor
  · rw [f3, abs_of_nonneg (by linarith)]
    linarith
  · intro t2 hmo hlt
    exact hmo _ (lt_of_le_of_lt hb hlt)

/-- Witness for C4 amended at the two-axis test oracle. -/
theorem dual_change_converges_to_first_witness :
    |(bisect twoAxisOracle true true 1 false 20 0 1 1).found - 1 / 4| ≤ (1 - 0) / 2 ^ 20 ∧
    ∀ t2 : ℚ, (∀ t, t < t2 → decide ((twoAxisOracle t).2 < 0) = false) →
      1 / 4 + (1 - 0) / 2 ^ 20 < t2 →
      decide ((twoAxisOracle
        (bisect twoAxisOracle true true 1 false 20 0 1 1).found).2 < 0) = false :=
  dual_change_converges_to_first twoAxisOracle 1 false 0 1 (1 / 4)
    twoAxis_matchPrev (by norm_num) (by norm_num)

/-- C5: the refiner runs exactly 20 bisection iterations (20 midpoint
queries), the refined instant is the final high endpoint, it lies in the
half-open bracket (prev, next], and when the bracket contains exactly one
state change (the pre-change test is a step at tstar) the refined instant
is within (next - prev) / 2^20 of it. -/
theorem refiner_spec (o : Oracle) (sc mc : Bool) (ps : ℤ) (pr : Bool)
    (low high : ℚ) (h : low < high) :
    (bisect o sc mc ps pr 20 low high high).trace.length = 20 ∧
    (bisect o sc mc ps pr 20 low high high).found =
      (bisect o sc mc ps pr 20 low high high).high ∧
    low < (bisect o sc mc ps pr 20 low high high).found ∧
    (bisect o sc mc ps pr 20 low high high).found ≤ high ∧
    ∀ tstar : ℚ, (∀ t, matchPrev o sc mc ps pr t = decide (t < tstar)) →
      low < tstar → tstar ≤ high →
      |(bisect o sc mc ps pr 20 low high high).found - tstar| ≤ (high - low) / 2 ^ 20 := by
  have hmem := bisect_found_mem o sc mc ps pr 20 low high low high high
    le_rfl h le_rfl h le_rfl
  refine ⟨bisect_trace_length o sc mc ps pr 20 low high high,
    bisect_found_eq_high o sc mc ps pr 20 low high high rfl, hmem.1, hmem.2, ?_⟩
  intro tstar hx h1 h2
  obtain ⟨f1, f2, f3, f4⟩ := bisect_exact o sc mc ps pr tstar hx 20 low high high h1 h2 rfl
  rw [f3, abs_of_nonneg (by linarith)]
  linarith

/-- Witness for C5 at the one-change test oracle on the bracket (0, 1]. -/
theorem refiner_spec_witness :
    (bisect oneChangeOracle true false 1 false 20 0 1 1).trace.length = 20 ∧
    (bisect oneChangeOracle true false 1 false 20 0 1 1).found =
      (bisect oneChangeOracle true false 1 false 20 0 1 1).high ∧
    0 < (bisect oneChangeOracle true false 1 false 20 0 1 1).found ∧
    (bisect oneChangeOracle true false 1 false 20 0 1 1).found ≤ 1 ∧
    ∀ tstar : ℚ, (∀ t, matchPrev oneChangeOracle true false 1 false t =
        decide (t < tstar)) →
      0 < tstar → tstar ≤ 1 →
      |(bisect oneChangeOracle true false 1 false 20 0 1 1).found - tstar| ≤
        (1 - 0) / 2 ^ 20 :=
  refiner_spec oneChangeOracle true false 1 false 0 1 (by norm_num)

/-- C6: for every window with start before end, the event sequence is
non-empty, starts with the initial-sample event at the window start, every
event time lies in the window, and the per-event intervals cover each
instant of the window exactly once (no gaps, no overlaps). -/
theorem find_events_coverage (o : Oracle) (m : Bool) (s e : ℚ) (h : s < e) :
    (findEvents o m s e).1 ≠ [] ∧
    (findEvents o m s e).1.head? = some (foundEv o s) ∧
    (∀ ev ∈ (findEvents o m s e).1, s ≤ ev.jd ∧ ev.jd ≤ e) ∧
    ∀ t : ℚ, s ≤ t → t ≤ e → ∃! i : Nat, covers (findEvents o m s e).1 e i t := by
  obtain ⟨tail, e1, e2, e3, e4⟩ := findEvents_inv o m s e
  rw [e1]
  have hmem : ∀ ev ∈ foundEv o s :: tail, s ≤ ev.jd ∧ ev.jd ≤ e := by
    intro ev hev
    rcases List.mem_cons.mp hev with hev' | hev'
    · rw [hev']
      exact ⟨le_rfl, le_of_lt h⟩
    · exact ⟨le_of_lt (e4 ev hev').1, (e4 ev hev').2⟩
  refine ⟨by simp, by simp, hmem, ?_⟩
  intro t hst hte
  apply covers_partition (foundEv o s :: tail) e e2 ?_ t ⟨by simp, by simpa using hst⟩ hte
  intro x hx
  exact (hmem x (List.mem_of_mem_getLast? hx)).2

/-- Witness for C6 at a concrete oracle and window. -/
theorem find_events_coverage_witness :
    (findEvents constOracle false 0 1).1 ≠ [] ∧
    (findEvents constOracle false 0 1).1.head? = some (foundEv constOracle 0) ∧
    (∀ ev ∈ (findEvents constOracle false 0 1).1, 0 ≤ ev.jd ∧ ev.jd ≤ 1) ∧
    ∀ t : ℚ, 0 ≤ t → t ≤ 1 →
      ∃! i : Nat, covers (findEvents constOracle false 0 1).1 1 i t :=
  find_events_coverage constOracle false 0 1 (by norm_num)

/-- C7: when the window end equals the start, the scanning loop runs zero
iterations: the builder returns exactly one event, at the start, carrying
the state sampled there, and the only oracle query is the initial sample. -/
theorem find_events_point_window (o : Oracle) (m : Bool) (t : ℚ) :
    findEvents o m t t = ([foundEv o t], [t]) := by
  show ((findLoop o m t t (foundEv o t).sign (foundEv o t).retro [foundEv o t]).1,
    t :: (findLoop o m t t (foundEv o t).sign (foundEv o t).retro [foundEv o t]).2) =
    ([foundEv o t], [t])
  rw [findLoop_stop o m t t (foundEv o t).sign (foundEv o t).retro [foundEv o t]
    (lt_irrefl t)]

/-- C8: the classifier maps the spec's three samples as claimed: longitude
45 to sign 2, longitude 359 to sign 12, longitude 0 to sign 1, and the
retrograde flag is the predicate speed < 0 (false for speeds 1 and 1/10,
true for speed -1/2). -/
theorem classifier_samples :
    get_sign 45 = 2 ∧ planetData (fun _ => (45, 1)) 0 = (45, 1, false) ∧
    get_sign 359 = 12 ∧ planetData (fun _ => (359, -1 / 2)) 0 = (359, -1 / 2, true) ∧
    get_sign 0 = 1 ∧ planetData (fun _ => (0, 1 / 10)) 0 = (0, 1 / 10, false) := by
  have hd1 : ¬ ((1 : ℚ) < 0) := by norm_num
  have hd2 : ((-1 / 2 : ℚ) < 0) := by norm_num
  have hd3 : ¬ ((1 / 10 : ℚ) < 0) := by norm_num
  refine ⟨?_, ?_, ?_, ?_, ?_, ?_⟩
  · norm_num [get_sign, pyTrunc]
  · simp [planetData, hd1]
  · norm_num [get_sign, pyTrunc]
  · simp [planetData, hd2]
  · norm_num [get_sign, pyTrunc]
  · simp [planetData, hd3]

/-- C9: the builder is deterministic: two runs against pointwise-equal
oracles on the same body class and window produce identical event
sequences (and identical query traces). -/
theorem find_events_deterministic (o1 o2 : Oracle) (m : Bool) (s e : ℚ)
    (h : ∀ t, o1 t = o2 t) :
    findEvents o1 m s e = findEvents o2 m s e := by
  have ho : o1 = o2 := funext h
  rw [ho]

/-- Witness for C9 at a concrete oracle and window. -/
theorem find_events_deterministic_witness :
    findEvents constOracle false 0 1 = findEvents constOracle false 0 1 :=
  find_events_deterministic constOracle constOracle false 0 1 (fun _ => rfl)

/-- C10: at every instant, Ketu's longitude is Rahu's longitude plus 180
degrees reduced mod 360, hence in [0, 360); Ketu's speed is exactly Rahu's
speed and its retrograde flag is the predicate Rahu's speed < 0, which is
exactly the motion state get_planet_data computes for Rahu itself. -/
theorem ketu_mirrors_rahu (rahu : Oracle) (jd : ℚ) :
    (ketuData rahu jd).1 = pymod ((rahu jd).1 + 180) 360 ∧
    0 ≤ (ketuData rahu jd).1 ∧ (ketuData rahu jd).1 < 360 ∧
    (ketuData rahu jd).2.1 = (planetData rahu jd).2.1 ∧
    (ketuData rahu jd).2.2 = (planetData rahu jd).2.2 := by
  refine ⟨rfl, ?_, ?_, rfl, rfl⟩
  · exact (pymod_360_bounds _).1
  · exact (pymod_360_bounds _).2

end VedicTransits
